import Mathlib

/-!
# Icicle ingestion pipeline: verification of the specification against the code

Shallow embedding of the Icicle blockchain ingestion pipeline (Go), covering:

* the ClickHouse table engines declared in `pkg/chwrapper/raw_tables.sql`
  (MergeTree vs ReplacingMergeTree and their logical-row semantics);
* the incremental-indexer step of the `indexer` package
  (`processBatchedIncrementals` / `processImmediateIncrementals`);
* the granular-metric step (`processGranularMetrics` / `runGranularMetric`);
* the P-chain RPC fetcher (`FetchBlockRange`, retry loops) of
  `pkg/pchainrpc/fetcher.go`;
* the refund computation `calculateRefundFromDeposits` and
  `MarkInactiveValidators` of `pkg/pchainsyncer/ingest.go`;
* the cache-fill checkpointing of `cmd/cmd_cache.go` (`runChainCache`);
* the per-chain supervisor of `cmd/cmd_wipe.go` (`RunIngest`).

Machine integers are modelled as `Nat`/`Int`; timestamps as integer
milliseconds or seconds; fallible operations as `Option`/`Except`.
-/

namespace Icicle

/-! ## ClickHouse engine semantics (`pkg/chwrapper/raw_tables.sql`)

A ClickHouse table receives a sequence of appended rows.  A plain
`MergeTree()` engine retains every appended row.  A
`ReplacingMergeTree(version)` engine, after a (background) merge with a
final read, keeps one logical row per sort-key tuple — the latest inserted
row for that key (for identical duplicate rows the choice is immaterial).
`lastPerKey` keeps, for each key, the last appended row with that key. -/

def lastPerKey {R K : Type} [DecidableEq K] (key : R → K) : List R → List R
  | [] => []
  | r :: rs =>
    if rs.any (fun s => key s = key r) then lastPerKey key rs
    else r :: lastPerKey key rs

/-- A table declaration: whether the engine is `ReplacingMergeTree` and the
`ORDER BY` sort key, as written in `raw_tables.sql`. -/
structure CHTable (R K : Type) where
  replacing : Bool
  sortKey : R → K

/-- The logical rows a reader observes after appends `rows` followed by a
full background merge (a `FINAL` read). -/
def logicalRows {R K : Type} [DecidableEq K] (t : CHTable R K)
    (rows : List R) : List R :=
  if t.replacing then lastPerKey t.sortKey rows else rows

/-- A row of `raw_blocks` (`raw_tables.sql` lines 2–32). `FixedString`
columns are byte strings modelled as `Nat` digests, `DateTime64(3)` as
integer milliseconds. -/
structure RawBlocksRow where
  chain_id : Nat := 0
  block_number : Nat := 0
  hash : Nat := 0
  parent_hash : Nat := 0
  block_time : Int := 0
  miner : Nat := 0
  difficulty : Nat := 0
  total_difficulty : Nat := 0
  size : Nat := 0
  gas_limit : Nat := 0
  gas_used : Nat := 0
  base_fee_per_gas : Nat := 0
  block_gas_cost : Nat := 0
  state_root : Nat := 0
  transactions_root : Nat := 0
  receipts_root : Nat := 0
  extra_data : String := ""
  block_extra_data : String := ""
  ext_data_hash : Nat := 0
  ext_data_gas_used : Nat := 0
  mix_hash : Nat := 0
  nonce : Nat := 0
  sha3_uncles : Nat := 0
  uncles : List Nat := []
  blob_gas_used : Nat := 0
  excess_blob_gas : Nat := 0
  parent_beacon_block_root : Nat := 0
  min_delay_excess : Nat := 0
  deriving DecidableEq, Repr

/-- A row of `raw_txs` (`raw_tables.sql` lines 35–62).  `Nullable` columns
are `Option`, the `access_list` is a list of (address, storage keys). -/
structure RawTxsRow where
  chain_id : Nat := 0
  hash : Nat := 0
  block_number : Nat := 0
  block_hash : Nat := 0
  block_time : Int := 0
  transaction_index : Nat := 0
  nonce : Nat := 0
  tx_from : Nat := 0
  tx_to : Option Nat := none
  value : Nat := 0
  gas_limit : Nat := 0
  gas_price : Nat := 0
  gas_used : Nat := 0
  success : Bool := true
  input : String := ""
  type : Nat := 0
  max_fee_per_gas : Option Nat := none
  max_priority_fee_per_gas : Option Nat := none
  priority_fee_per_gas : Option Nat := none
  base_fee_per_gas : Nat := 0
  contract_address : Option Nat := none
  access_list : List (Nat × List Nat) := []
  deriving DecidableEq, Repr

/-- A row of `p_chain_txs` (`raw_tables.sql` lines 124–166); `tx_data` is
the JSON payload carried verbatim. -/
structure PChainTxRow where
  tx_id : String := ""
  tx_type : String := ""
  block_number : Nat := 0
  block_time : Int := 0
  p_chain_id : Nat := 0
  tx_data : String := ""
  deriving DecidableEq, Repr

/-- `raw_blocks`: `ENGINE = MergeTree() ORDER BY (chain_id, block_number)`
(`raw_tables.sql` lines 31–32). -/
def raw_blocks : CHTable RawBlocksRow (Nat × Nat) :=
  { replacing := false, sortKey := fun r => (r.chain_id, r.block_number) }

/-- `raw_txs`: `ENGINE = MergeTree() ORDER BY (chain_id, block_number)`
(`raw_tables.sql` lines 61–62). -/
def raw_txs : CHTable RawTxsRow (Nat × Nat) :=
  { replacing := false, sortKey := fun r => (r.chain_id, r.block_number) }

/-- `p_chain_txs`: `ENGINE = ReplacingMergeTree(block_time)
ORDER BY (p_chain_id, tx_id)` (`raw_tables.sql` lines 165–166). -/
def p_chain_txs : CHTable PChainTxRow (Nat × String) :=
  { replacing := true, sortKey := fun r => (r.p_chain_id, r.tx_id) }

theorem lastPerKey_append_of_mem {R K : Type} [DecidableEq K] (key : R → K)
    (xs ys : List R) (h : ∀ r ∈ xs, ∃ s ∈ ys, key s = key r) :
    lastPerKey key (xs ++ ys) = lastPerKey key ys := by
  induction xs with
  | nil => simp
  | cons r rs ih =>
    have hr : ∃ s ∈ ys, key s = key r := h r (by simp)
    have hany : (rs ++ ys).any (fun s => key s = key r) = true := by
      rcases hr with ⟨s, hs, hks⟩
      exact List.any_eq_true.mpr ⟨s, by simp [hs], by simp [hks]⟩
    have := ih (fun r hrmem => h r (by simp [hrmem]))
    simpa [lastPerKey, hany] using this

theorem lastPerKey_self_append {R K : Type} [DecidableEq K] (key : R → K)
    (xs : List R) : lastPerKey key (xs ++ xs) = lastPerKey key xs :=
  lastPerKey_append_of_mem key xs xs (fun r hr => ⟨r, hr, rfl⟩)

/-! ## Block-range incremental indexers (`indexer` package, `incremental.go`)

`processBatchedIncrementals` and `processImmediateIncrementals` share the
same per-indexer body (they differ only in the wall-clock throttle interval,
5 min vs 0.9 s, which gates whether the body runs at all):

```
watermark := r.getWatermark(indexerName)
if watermark.LastBlockNum == 0 { watermark.LastBlockNum = 1 }
if r.latestBlockNum <= watermark.LastBlockNum { continue }
r.runIncrementalIndexer(indexerFile, kind, watermark.LastBlockNum+1, r.latestBlockNum)
watermark.LastBlockNum = r.latestBlockNum
```

The SQL execution receives the inclusive block range
`[watermark+1, latestBlockNum]` as `{first_block}`/`{last_block}` binds.
`incrementalStep` is that body on the success path (a SQL failure panics,
see `incrementalRunOutcome`). -/

/-- Result of one per-indexer incremental step: the `(first_block,
last_block)` range handed to `runIncrementalIndexer` (or `none` when the
step skips), and the in-memory watermark afterwards. -/
structure IncStepResult where
  ranRange : Option (Nat × Nat)
  newWatermark : Nat
  deriving DecidableEq, Repr

/-- One per-indexer iteration of `processBatchedIncrementals` /
`processImmediateIncrementals` (success path), for in-memory watermark
`lastBlockNum` and latest ingested block `latest`. -/
def incrementalStep (lastBlockNum latest : Nat) : IncStepResult :=
  let w := if lastBlockNum = 0 then 1 else lastBlockNum
  if latest ≤ w then { ranRange := none, newWatermark := w }
  else { ranRange := some (w + 1, latest), newWatermark := latest }

/-! ## Panic propagation and the `RunIngest` supervisor (`cmd/cmd_wipe.go`)

`processBatchedIncrementals`/`processImmediateIncrementals` turn a failed
indexer SQL execution into a `panic(err)`.  `RunIngest` spawns one
goroutine per configured chain, whose body is

```
defer func() {
    if r := recover(); r != nil { log.Printf("[Chain %d] PANIC RECOVERED: %v", chainID, r) }
    log.Printf("[Chain %d] Syncer goroutine exiting!", chainID)
    wg.Done()
}()
s.Start(); s.Wait()
```

so a panic unwinding the per-chain task is recovered, logged and swallowed;
`wg.Done()` runs and `RunIngest` keeps waiting for the remaining syncers.
No `os.Exit` or re-panic follows a recovery. -/

/-- How a per-chain task run ends: normally, or by a panic unwinding it. -/
inductive TaskOutcome where
  | completed
  | panicked (msg : String)
  deriving DecidableEq, Repr

/-- The per-indexer step of the incremental runner maps a failed SQL
execution to `panic(err)` (`incremental.go`: `panic(err)` after
`runIncrementalIndexer` returns an error) and a success to normal
completion. -/
def incrementalRunOutcome (sqlExec : Except String Unit) : TaskOutcome :=
  match sqlExec with
  | .ok _ => .completed
  | .error e => .panicked e

/-- What the deferred handler of a per-chain goroutine in `RunIngest`
produces: the recovered panic value (if any), whether this goroutine
exited, and whether the process as a whole exits because of it. -/
structure SupervisedResult where
  recovered : Option String
  goroutineExited : Bool
  processExited : Bool
  deriving DecidableEq, Repr

/-- The deferred `recover` wrapper `RunIngest` installs around each
per-chain syncer task (`cmd_wipe.go` lines 283–289): a panic is recovered
and logged, the goroutine exits via `wg.Done()`, and the process does not
exit (the remaining syncers keep running until `wg.Wait()` returns). -/
def superviseChainTask (outcome : TaskOutcome) : SupervisedResult :=
  match outcome with
  | .completed => { recovered := none, goroutineExited := true, processExited := false }
  | .panicked msg => { recovered := some msg, goroutineExited := true, processExited := false }

/-! ## Granular metrics (`indexer` package, `metrics` step)

`processGranularMetrics` runs, per metric file and granularity:

```
if watermark.LastPeriod.IsZero() { watermark.LastPeriod = epoch }
periods := getPeriodsToProcess(watermark.LastPeriod, r.latestBlockTime, granularity)
if len(periods) == 0 { continue }
r.runGranularMetric(metricFile, granularity, periods)   // one SQL execution
watermark.LastPeriod = periods[len(periods)-1]
```

and `runGranularMetric` substitutes `first_period = periods[0]` and
`last_period = nextPeriod(periods[last])` (exclusive end) into the SQL.

Modelled from the spec: the helpers `getPeriodsToProcess` and `nextPeriod`
are part of this repository but are not under `src/`.  The specification
defines them as: `next_period(t, g)` is the start of the bucket after `t`
at granularity `g` (hence strictly later than `t`), and the period list is
the ordered chain `p₀ = next_period(last, g)`, `pᵢ₊₁ = next_period(pᵢ, g)`
of **closed** periods, i.e. exactly those `p` with `next_period(p, g) ≤
block_time`.  Timestamps are `Nat` seconds, `next` stands for
`next_period(·, g)` at a fixed granularity, and the recursion carries fuel
`now + 1` (sufficient whenever `next` is strictly increasing). -/

/-- Modelled from the spec: the closed-period chain collector behind
`getPeriodsToProcess`.  Starting at candidate period `p`, emit `p` and move
to `next p` while `next p ≤ now`; stop at the first candidate whose end
lies beyond `now`. -/
def periodsFrom (next : Nat → Nat) (now : Nat) : Nat → Nat → List Nat
  | 0, _ => []
  | fuel + 1, p =>
    if next p ≤ now then p :: periodsFrom next now fuel (next p)
    else []

/-- Modelled from the spec: `getPeriodsToProcess(last, now, g)` — the
ordered list of closed period starts after watermark `last`, starting at
`next last`. -/
def getPeriodsToProcess (next : Nat → Nat) (last now : Nat) : List Nat :=
  periodsFrom next now (now + 1) (next last)

/-- Result of one metric/granularity iteration of
`processGranularMetrics`: the `(first_period, last_period)` half-open
window bound into the SQL (or `none` when no SQL ran), the watermark
afterwards, and the emitted period starts. -/
structure GranStepResult where
  sqlRun : Option (Nat × Nat)
  newLastPeriod : Nat
  emitted : List Nat
  deriving DecidableEq, Repr

/-- One metric/granularity iteration of `processGranularMetrics` on the
success path (a SQL failure panics), with watermark `last` (`0` plays the
role of both the zero time and the epoch initialisation) and latest
ingested block time `now`. -/
def processGranularMetricStep (next : Nat → Nat) (last now : Nat) :
    GranStepResult :=
  match getPeriodsToProcess next last now with
  | [] => { sqlRun := none, newLastPeriod := last, emitted := [] }
  | p0 :: rest =>
    let pk := (p0 :: rest).getLast (List.cons_ne_nil p0 rest)
    { sqlRun := some (p0, next pk), newLastPeriod := pk,
      emitted := p0 :: rest }

theorem periodsFrom_eq_nil (next : Nat → Nat) (now fuel p : Nat)
    (h : now < next p) : periodsFrom next now fuel p = [] := by
  cases fuel with
  | zero => rfl
  | succ fuel => simp [periodsFrom, Nat.not_le.mpr h]

theorem periodsFrom_closed (next : Nat → Nat) (now : Nat) :
    ∀ fuel p, ∀ q ∈ periodsFrom next now fuel p, next q ≤ now := by
  intro fuel
  induction fuel with
  | zero => intro p q hq; simp [periodsFrom] at hq
  | succ fuel ih =>
    intro p q hq
    by_cases hle : next p ≤ now
    · simp only [periodsFrom, if_pos hle, List.mem_cons] at hq
      rcases hq with rfl | hq
      · exact hle
      · exact ih (next p) q hq
    · simp [periodsFrom, hle] at hq

theorem periodsFrom_nil_of_fuel (next : Nat → Nat)
    (hnext : ∀ t, t < next t) (now : Nat) :
    ∀ fuel p, now + 1 ≤ p + fuel → periodsFrom next now fuel p = [] →
      now < next p := by
  intro fuel
  induction fuel with
  | zero =>
    intro p hfuel _
    have hp : now < p := by omega
    exact lt_trans hp (hnext p)
  | succ fuel ih =>
    intro p hfuel hnil
    by_cases hle : next p ≤ now
    · simp [periodsFrom, hle] at hnil
    · exact Nat.not_le.mp hle

theorem periodsFrom_chain (next : Nat → Nat) (now : Nat) :
    ∀ fuel p, List.Chain' (fun a b => b = next a)
      (periodsFrom next now fuel p) ∧
      (∀ q, (periodsFrom next now fuel p).head? = some q → q = p) := by
  intro fuel
  induction fuel with
  | zero => intro p; simp [periodsFrom]
  | succ fuel ih =>
    intro p
    by_cases hle : next p ≤ now
    · have hr := ih (next p)
      refine ⟨?_, ?_⟩
      · simp only [periodsFrom, if_pos hle]
        refine List.chain'_cons'.mpr ⟨?_, hr.1⟩
        intro y hy
        exact (hr.2 y hy).symm ▸ rfl
      · intro q hq
        simp only [periodsFrom, if_pos hle, List.head?_cons] at hq
        exact (Option.some_inj.mp hq).symm
    · simp [periodsFrom, hle]

theorem periodsFrom_getLast (next : Nat → Nat)
    (hnext : ∀ t, t < next t) (now : Nat) :
    ∀ fuel p, now + 1 ≤ p + fuel →
      ∀ (hne : periodsFrom next now fuel p ≠ []),
        now < next (next ((periodsFrom next now fuel p).getLast hne)) := by
  intro fuel
  induction fuel with
  | zero => intro p _ hne; simp [periodsFrom] at hne
  | succ fuel ih =>
    intro p hfuel hne
    by_cases hle : next p ≤ now
    · have hstep : p + 1 ≤ next p := hnext p
      rcases hrest : periodsFrom next now fuel (next p) with _ | ⟨q, qs⟩
      · have hlast : (periodsFrom next now (fuel + 1) p).getLast hne = p := by
          simp [periodsFrom, hle, hrest]
        rw [hlast]
        exact periodsFrom_nil_of_fuel next hnext now fuel (next p)
          (by omega) hrest
      · have hne2 : periodsFrom next now fuel (next p) ≠ [] := by
          simp [hrest]
        have hlast : (periodsFrom next now (fuel + 1) p).getLast hne =
            (periodsFrom next now fuel (next p)).getLast hne2 := by
          simp only [periodsFrom, if_pos hle]
          exact List.getLast_cons hne2
        rw [hlast]
        exact ih (next p) (by omega) hne2
    · exact absurd (periodsFrom_eq_nil next now _ p (Nat.not_le.mp hle)) hne

/-! ## P-chain RPC fetcher (`pkg/pchainrpc/fetcher.go`)

`FetchBlockRange(from, to)` (lines 225–285): reject `from > to`; look every
height of `[from, to]` up in the cache (`GetBlockRange`), parse each hit
(`parseAndNormalize`); a miss or a failed parse goes to `missingBlocks`;
`fetchAndCacheMissingBlocks` fetches all misses and fails the whole call if
any single fetch-and-parse fails; otherwise the results fill their slots
`blockNum - from` and the ordered array is returned.

The embedding collapses "present in the cache and parses" into
`cacheParse : Int → Option NormalizedBlock` and "fetched over RPC and
parses" into `fetchParse : Int → Option NormalizedBlock` (heights are
`int64`).  Concurrency only affects fetch order, not the all-or-nothing
result, so the merge is sequential here. -/

/-- A parsed and normalized P-chain block (`pchainrpc.NormalizedBlock`):
block and parent identifiers as digests, `Height` as in the parsed bytes,
timestamp in integer milliseconds, transactions as their tx-id digests. -/
structure NormalizedBlock where
  blockID : Nat := 0
  height : Int := 0
  parentID : Nat := 0
  timestamp : Int := 0
  transactions : List Nat := []
  deriving DecidableEq, Repr

/-- Errors of `FetchBlockRange`: the fast invalid-range argument error, or
a failure to produce some block of the range. -/
inductive FetchErr where
  | invalidRange (lo hi : Int)
  | fetchFailed
  deriving DecidableEq, Repr

/-- How one height of the range is produced: from the cache when the cached
bytes are present and parse, otherwise by fetching (steps 2 and 4 of
`FetchBlockRange`). -/
def resolveBlock (cacheParse fetchParse : Int → Option NormalizedBlock)
    (h : Int) : Option NormalizedBlock :=
  match cacheParse h with
  | some b => some b
  | none => fetchParse h

/-- All-or-nothing resolution of a list of heights: the semantics of
`fetchAndCacheMissingBlocks` merged with the cache hits — any failing
height fails the whole call (`fetchErr` / `missing block %d after
fetch`). -/
def resolveAll (resolve : Int → Option NormalizedBlock) :
    List Int → Option (List NormalizedBlock)
  | [] => some []
  | h :: t =>
    match resolve h with
    | none => none
    | some b =>
      match resolveAll resolve t with
      | none => none
      | some bs => some (b :: bs)

/-- `FetchBlockRange(from, to)` of `fetcher.go` lines 225–285 (`lo`/`hi`
stand for `from`/`to`). -/
def FetchBlockRange (cacheParse fetchParse : Int → Option NormalizedBlock)
    (lo hi : Int) : Except FetchErr (List NormalizedBlock) :=
  if lo > hi then .error (.invalidRange lo hi)
  else
    let numBlocks := (hi - lo + 1).toNat
    let heights := (List.range numBlocks).map (fun i : Nat => lo + (i : Int))
    match resolveAll (resolveBlock cacheParse fetchParse) heights with
    | none => .error .fetchFailed
    | some blocks => .ok blocks

theorem resolveAll_isSome (resolve : Int → Option NormalizedBlock) :
    ∀ hs : List Int, (∀ h ∈ hs, (resolve h).isSome) →
      ∃ bs, resolveAll resolve hs = some bs ∧ bs.length = hs.length ∧
        ∀ i : Fin bs.length, ∀ (hi : i.val < hs.length),
          resolve (hs.get ⟨i.val, hi⟩) = some (bs.get i) := by
  intro hs
  induction hs with
  | nil => intro _; exact ⟨[], rfl, rfl, fun i => absurd i.isLt (by simp)⟩
  | cons h t ih =>
    intro hall
    have hh : (resolve h).isSome := hall h (by simp)
    rcases Option.isSome_iff_exists.mp hh with ⟨b, hb⟩
    rcases ih (fun x hx => hall x (by simp [hx])) with ⟨bs, hbs, hlen, hget⟩
    refine ⟨b :: bs, ?_, by simp [hlen], ?_⟩
    · simp [resolveAll, hb, hbs]
    · intro i hi
      rcases i with ⟨iv, hiv⟩
      cases iv with
      | zero => simpa using hb
      | succ j =>
        have hj : j < bs.length := by simpa using hiv
        simpa using hget ⟨j, hj⟩ (by omega)

theorem resolveAll_eq_none (resolve : Int → Option NormalizedBlock) :
    ∀ hs : List Int, (∃ h ∈ hs, resolve h = none) →
      resolveAll resolve hs = none := by
  intro hs
  induction hs with
  | nil => intro hex; simp at hex
  | cons h t ih =>
    intro hex
    rcases hex with ⟨x, hx, hnone⟩
    rcases List.mem_cons.mp hx with rfl | hxt
    · simp [resolveAll, hnone]
    · cases hh : resolve h with
      | none => simp [resolveAll, hh]
      | some b => simp [resolveAll, hh, ih ⟨x, hxt, hnone⟩]

/-! ## Retry with exponential backoff (`fetcher.go`)

`fetchSingleBlock`, `fetchSingleJSONBlock`, `GetLatestBlock`,
`GetCurrentValidators`, `GetUTXOs` and `GetL1Validator` all share the same
loop:

```
for attempt := 0; attempt <= f.maxRetries; attempt++ {
    if attempt > 0 {
        delay := f.retryDelay * time.Duration(1<<uint(attempt-1))
        if delay > 10*time.Second { delay = 10 * time.Second }
        time.Sleep(delay)
    }
    ... try; on success return; on error continue ...
}
return error after f.maxRetries retries
```

Durations are modelled in milliseconds (`10*time.Second = 10000`); the
outcome of the body at attempt `i` is `oracle i`. -/

/-- The 10-second backoff cap, in milliseconds. -/
def backoffCapMs : Nat := 10000

/-- Trace of one retried request: the sleeps performed (in order, in
milliseconds), the number of attempts made, and the final outcome. -/
structure RetryRun (α : Type) where
  delays : List Nat
  attempts : Nat
  result : Option α
  deriving DecidableEq, Repr

/-- The retry loop body, from attempt number `attempt` with `fuel`
iterations left; `d` is `retryDelay` in milliseconds. -/
def retryLoop {α : Type} (d : Nat) (oracle : Nat → Option α) :
    Nat → Nat → RetryRun α
  | _, 0 => { delays := [], attempts := 0, result := none }
  | attempt, fuel + 1 =>
    let ds : List Nat :=
      if attempt = 0 then [] else [min (d * 2 ^ (attempt - 1)) backoffCapMs]
    match oracle attempt with
    | some b => { delays := ds, attempts := 1, result := some b }
    | none =>
      let rest := retryLoop d oracle (attempt + 1) fuel
      { delays := ds ++ rest.delays, attempts := rest.attempts + 1,
        result := rest.result }

/-- A whole retried request (`fetchSingleBlock` and the other retry loops):
attempts `0 .. maxRetries` inclusive. -/
def fetchWithRetry {α : Type} (maxRetries d : Nat)
    (oracle : Nat → Option α) : RetryRun α :=
  retryLoop d oracle 0 (maxRetries + 1)

theorem retryLoop_attempts_le {α : Type} (d : Nat) (oracle : Nat → Option α) :
    ∀ fuel s, (retryLoop d oracle s fuel).attempts ≤ fuel := by
  intro fuel
  induction fuel with
  | zero => intro s; simp [retryLoop]
  | succ fuel ih =>
    intro s
    cases h : oracle s with
    | some b => simp [retryLoop, h]
    | none => simpa [retryLoop, h] using ih (s + 1)

theorem retryLoop_result_none_iff {α : Type} (d : Nat)
    (oracle : Nat → Option α) :
    ∀ fuel s, ((retryLoop d oracle s fuel).result = none ↔
      ∀ i, s ≤ i → i < s + fuel → oracle i = none) := by
  intro fuel
  induction fuel with
  | zero => intro s; simp [retryLoop]; omega
  | succ fuel ih =>
    intro s
    cases h : oracle s with
    | some b =>
      simp only [retryLoop, h]
      constructor
      · intro hc; exact absurd hc (by simp)
      · intro hall
        have := hall s (le_refl s) (by omega)
        rw [this] at h; exact absurd h (by simp)
    | none =>
      simp only [retryLoop, h]
      rw [ih (s + 1)]
      constructor
      · intro hall i hsi hlt
        rcases Nat.eq_or_lt_of_le hsi with rfl | hlt2
        · exact h
        · exact hall i hlt2 (by omega)
      · intro hall i hsi hlt
        exact hall i (by omega) (by omega)

theorem retryLoop_attempts_of_none {α : Type} (d : Nat)
    (oracle : Nat → Option α) :
    ∀ fuel s, (retryLoop d oracle s fuel).result = none →
      (retryLoop d oracle s fuel).attempts = fuel := by
  intro fuel
  induction fuel with
  | zero => intro s _; rfl
  | succ fuel ih =>
    intro s hnone
    cases h : oracle s with
    | some b => simp [retryLoop, h] at hnone
    | none =>
      simp only [retryLoop, h] at hnone ⊢
      rw [ih (s + 1) hnone]

theorem retryLoop_delays_of_pos {α : Type} (d : Nat)
    (oracle : Nat → Option α) :
    ∀ fuel s, 1 ≤ s → (retryLoop d oracle s fuel).delays =
      (List.range (retryLoop d oracle s fuel).attempts).map
        (fun i => min (d * 2 ^ (s - 1 + i)) backoffCapMs) := by
  intro fuel
  induction fuel with
  | zero => intro s _; simp [retryLoop]
  | succ fuel ih =>
    intro s hs
    have hsne : ¬ s = 0 := by omega
    cases h : oracle s with
    | some b => simp [retryLoop, h, hsne, List.range_succ]
    | none =>
      simp only [retryLoop, h, if_neg hsne]
      rw [ih (s + 1) (by omega)]
      rw [List.range_succ_eq_map, List.map_cons, List.map_map,
        List.singleton_append]
      congr 1
      refine List.map_congr_left ?_
      intro i _
      have e : s + 1 - 1 + i = s - 1 + Nat.succ i := by omega
      simp only [Function.comp_apply, e]

theorem fetchWithRetry_delays {α : Type} (maxRetries d : Nat)
    (oracle : Nat → Option α) :
    (fetchWithRetry maxRetries d oracle).delays =
      (List.range ((fetchWithRetry maxRetries d oracle).attempts - 1)).map
        (fun i => min (d * 2 ^ i) backoffCapMs) := by
  unfold fetchWithRetry
  cases h : oracle 0 with
  | some b => simp [retryLoop, h]
  | none =>
    simp only [retryLoop, h, if_pos rfl]
    rw [retryLoop_delays_of_pos d oracle maxRetries 1 (le_refl 1)]
    simp

/-! ## Validator refunds (`pkg/pchainsyncer/ingest.go`, lines 1868–1956)

`calculateRefundFromDeposits` determines the validation-period start time
`startTime` and the period's summed deposits `totalDeposits` by SQL, then
computes

```
const minFeeRate = 512 // nAVAX per second
activeSeconds := uint64(disableTime.Sub(startTime).Seconds())
feesConsumed := activeSeconds * minFeeRate
if feesConsumed >= totalDeposits { return 0, nil }
return totalDeposits - feesConsumed, nil
```

Timestamps are integer milliseconds (`DateTime64(3)`); for `startMs ≤
disableMs` the Go float64 conversion `uint64(d.Seconds())` is the number of
whole elapsed seconds, i.e. `(disableMs - startMs) / 1000` rounded toward
zero. -/

/-- The fixed L1 validation fee rate, 512 nAVAX per second
(`minFeeRate`). -/
def minFeeRate : Nat := 512

/-- `calculateRefundFromDeposits`, with the SQL-derived period total
`totalDeposits` (nAVAX) and the period bounds as millisecond timestamps. -/
def calculateRefundFromDeposits (totalDeposits : Nat)
    (startMs disableMs : Int) : Nat :=
  let activeSeconds := ((disableMs - startMs) / 1000).toNat
  let feesConsumed := activeSeconds * minFeeRate
  if totalDeposits ≤ feesConsumed then 0 else totalDeposits - feesConsumed

/-! ## `MarkInactiveValidators` (`pkg/pchainsyncer/ingest.go`, lines 267–357)

The function receives the list of validation IDs present in the RPC
snapshot and returns immediately when it is empty; otherwise it queries the
active validators of the subnet from `l1_validator_state FINAL`, collects
those absent from the snapshot set and re-inserts them with
`active = false` (the ReplacingMergeTree keeps the latest version). -/

/-- A logical row of `l1_validator_state` as read and re-written by
`MarkInactiveValidators`.  `uptimeBits` carries the `Float64`
`uptime_percentage` opaquely (the function only copies it). -/
structure ValStateRow where
  subnetId : String := ""
  validationId : String := ""
  nodeId : String := ""
  balance : Nat := 0
  weight : Nat := 0
  startTime : Int := 0
  endTime : Int := 0
  uptimeBits : Nat := 0
  active : Bool := true
  pchainId : Nat := 0
  deriving DecidableEq, Repr

/-- Effect record of one `MarkInactiveValidators` call: whether the
`l1_validator_state` query ran, and the rows appended to the table. -/
structure MarkResult where
  queried : Bool
  inserted : List ValStateRow
  deriving DecidableEq, Repr

/-- `MarkInactiveValidators(ctx, conn, pchainID, subnetID,
activeValidationIDs)` against the current logical rows `db` of
`l1_validator_state`. -/
def MarkInactiveValidators (pchainId : Nat) (subnetId : String)
    (activeValidationIDs : List String) (db : List ValStateRow) :
    MarkResult :=
  if activeValidationIDs.isEmpty then { queried := false, inserted := [] }
  else
    let activeRows := db.filter (fun v =>
      v.pchainId = pchainId && v.subnetId = subnetId && v.active)
    let toDeactivate := activeRows.filter (fun v =>
      ¬ activeValidationIDs.contains v.validationId)
    { queried := true,
      inserted := toDeactivate.map (fun v =>
        { v with subnetId := subnetId, active := false,
                 pchainId := pchainId }) }

/-- The logical table contents after a `MarkInactiveValidators` call: the
previous rows plus the appended batch. -/
def applyMark (db : List ValStateRow) (r : MarkResult) : List ValStateRow :=
  db ++ r.inserted

/-! ## Cache-fill checkpointing (`cmd/cmd_cache.go`, `runChainCache`)

`runChainCache` splits `[startBlock, endBlock]` into chunks of
`FetchBatchSize` blocks and fetches each chunk in a goroutine:

```
blocks, err := fetcher.FetchBlockRange(from, to)
if err != nil { log.Printf("... Error fetching blocks %d-%d: %v", ...); return }
```

— a failed chunk is only logged; its blocks are not cached and no error is
propagated.  After all chunks finish, the code runs unconditionally:

```
if err := cacheInstance.SetCheckpoint(endBlock); err != nil { ... }
```

`chunkOk` tells whether the fetch of the chunk starting at a given block
succeeded (a successful `FetchBlockRange` writes every block of the chunk
to the cache). -/

/-- The chunk decomposition of `[current, endBlock]` with chunk size
`chunk ≥ 1`: pairs `(from, to)` as issued by the fetch loop of
`runChainCache` (`batchEnd = min (current+chunkSize-1) endBlock`). -/
def cacheChunks (endBlock chunk : Nat) : Nat → Nat → List (Nat × Nat)
  | 0, _ => []
  | fuel + 1, current =>
    if current > endBlock then []
    else
      let batchEnd := min (current + chunk - 1) endBlock
      (current, batchEnd) :: cacheChunks endBlock chunk fuel (batchEnd + 1)

/-- Outcome of the fetch phase of `runChainCache`: which blocks ended up in
the on-disk cache, and the final checkpoint written. -/
structure CacheRunResult where
  cachedBlocks : List (Nat × Nat)
  finalCheckpoint : Nat
  deriving DecidableEq, Repr

/-- The fetch-and-checkpoint phase of `runChainCache` (lines 186–236):
chunks whose fetch succeeded are cached; chunk errors are logged and
swallowed; the final checkpoint is saved at `endBlock` unconditionally. -/
def runChainCacheModel (startBlock endBlock chunk : Nat)
    (chunkOk : Nat → Bool) : CacheRunResult :=
  let chunks := cacheChunks endBlock chunk (endBlock + 1 - startBlock) startBlock
  { cachedBlocks := chunks.filter (fun c => chunkOk c.1),
    finalCheckpoint := endBlock }

/-- Whether block `b` is present in the cache after the run. -/
def blockCached (r : CacheRunResult) (b : Nat) : Bool :=
  r.cachedBlocks.any (fun c => c.1 ≤ b && b ≤ c.2)

/-! ## Claim C1 — raw-sink re-append idempotence -/

/-- C1, counterexample.  The claim says appending a batch twice to the raw
tables leaves the same logical rows as appending it once because every raw
table is a replace-by-sort-key engine.  `raw_blocks` is a plain
`MergeTree()` (`raw_tables.sql` line 31), so the duplicate batch doubles
its logical rows: a batch of one row yields two logical rows. -/
theorem C1_counterexample :
    logicalRows raw_blocks
        ([({ chain_id := 43114, block_number := 100 } : RawBlocksRow)] ++
         [({ chain_id := 43114, block_number := 100 } : RawBlocksRow)]) ≠
      logicalRows raw_blocks
        [({ chain_id := 43114, block_number := 100 } : RawBlocksRow)] := by
  decide

/-- C1, amended.  Re-append is idempotent only for the tables declared with
a `ReplacingMergeTree` engine, such as `p_chain_txs` (sort key
`(p_chain_id, tx_id)`); the EVM raw tables `raw_blocks` and `raw_txs` use
plain `MergeTree()` and retain every appended row, so a replayed batch
doubles their logical rows. -/
theorem C1_raw_sink_idempotence_amended :
    (∀ xs : List PChainTxRow,
      logicalRows p_chain_txs (xs ++ xs) = logicalRows p_chain_txs xs) ∧
    (∀ ys : List RawBlocksRow,
      logicalRows raw_blocks (ys ++ ys) = ys ++ ys) ∧
    (∀ zs : List RawTxsRow,
      logicalRows raw_txs (zs ++ zs) = zs ++ zs) := by
  refine ⟨fun xs => ?_, fun ys => ?_, fun zs => ?_⟩
  · simpa [logicalRows, p_chain_txs] using
      lastPerKey_self_append (fun r : PChainTxRow => (r.p_chain_id, r.tx_id)) xs
  · simp [logicalRows, raw_blocks]
  · simp [logicalRows, raw_txs]

/-! ## Claim C2 — incremental-indexer block ranges -/

/-- C2, counterexample.  The claim says a step with watermark 0 and latest
block 25000 processes `[1, 20000]` (a 20000-block batch cap).  The code of
`processBatchedIncrementals`/`processImmediateIncrementals` has no batch
cap and initialises a zero watermark to 1, so that step runs the SQL over
`[2, 25000]` and advances the watermark to 25000. -/
theorem C2_counterexample :
    incrementalStep 0 25000 =
      { ranRange := some (2, 25000), newWatermark := 25000 } ∧
    (incrementalStep 0 25000).ranRange ≠ some (1, 20000) ∧
    (incrementalStep 0 25000).newWatermark ≠ 20000 := by
  decide

/-- C2, amended.  For watermark `W` normalised to `w = max(W, 1)` (a zero
watermark is first initialised to 1, so block 1 is never processed) and
latest ingested block `L`: if `L > w` the step runs the indexer SQL over
the inclusive range `[w+1, L]` — the whole backlog, with no batch cap —
and advances the watermark to `L`; otherwise no SQL runs. -/
theorem C2_incremental_range_amended (lastBlockNum latest : Nat) :
    ((if lastBlockNum = 0 then 1 else lastBlockNum) < latest →
      incrementalStep lastBlockNum latest =
        { ranRange :=
            some ((if lastBlockNum = 0 then 1 else lastBlockNum) + 1, latest),
          newWatermark := latest }) ∧
    (latest ≤ (if lastBlockNum = 0 then 1 else lastBlockNum) →
      (incrementalStep lastBlockNum latest).ranRange = none ∧
      (incrementalStep lastBlockNum latest).newWatermark =
        (if lastBlockNum = 0 then 1 else lastBlockNum)) := by
  constructor
  · intro h
    simp [incrementalStep, Nat.not_le.mpr h]
  · intro h
    simp [incrementalStep, h]

/-- C2, witness: with watermark 20000 and latest 25000 the step runs
`[20001, 25000]` and advances the watermark to 25000. -/
theorem C2_witness :
    incrementalStep 20000 25000 =
      { ranRange := some (20001, 25000), newWatermark := 25000 } :=
  (C2_incremental_range_amended 20000 25000).1 (by decide)

/-! ## Claim C3 — panics and the supervisor -/

/-- C3, counterexample.  The claim says a panic from a failed indexer SQL
execution terminates the whole process and is never caught by a
supervisor.  `RunIngest` (`cmd_wipe.go`) installs a deferred `recover`
around each per-chain task: the panic raised by the runner is recovered
(logged as `PANIC RECOVERED`) and the process does not exit. -/
theorem C3_counterexample :
    (superviseChainTask
        (incrementalRunOutcome (.error "indexer sql failed"))).recovered =
      some "indexer sql failed" ∧
    (superviseChainTask
        (incrementalRunOutcome (.error "indexer sql failed"))).processExited =
      false :=
  ⟨rfl, rfl⟩

/-- C3, amended.  A failed indexer SQL execution does panic the per-chain
task (`panic(err)` in the incremental runner), but `RunIngest`'s deferred
`recover` catches the panic, logs it and lets the remaining chain syncers
keep running: only the panicking chain's goroutine exits and the process
does not terminate. -/
theorem C3_panic_supervision_amended (e : String) :
    incrementalRunOutcome (.error e) = .panicked e ∧
    superviseChainTask (.panicked e) =
      { recovered := some e, goroutineExited := true,
        processExited := false } ∧
    superviseChainTask .completed =
      { recovered := none, goroutineExited := true,
        processExited := false } :=
  ⟨rfl, rfl, rfl⟩

/-! ## Claim C4 — granular-metric period emission -/

/-- C4.  For a granular metric with watermark `last`, latest block time
`now` and period successor `next` (strictly increasing): if `now` is
before `next last` the step emits no period and runs no SQL and leaves the
watermark unchanged; every emitted period is closed (`next p ≤ now`); the
emitted list is the `next`-chain starting at `next last`; and when
anything is emitted, the last emitted period `pk` is the largest closed
one (`next pk ≤ now < next (next pk)`), the watermark advances to `pk`,
and the single SQL execution is bound to the half-open window
`[next last, next pk)`. -/
theorem C4_granular_period_emission (next : Nat → Nat)
    (hnext : ∀ t, t < next t) (last now : Nat) :
    (now < next last →
      processGranularMetricStep next last now =
        { sqlRun := none, newLastPeriod := last, emitted := [] }) ∧
    (∀ q ∈ (processGranularMetricStep next last now).emitted, next q ≤ now) ∧
    (∀ q, (processGranularMetricStep next last now).emitted.head? = some q →
      q = next last) ∧
    List.Chain' (fun a b => b = next a)
      (processGranularMetricStep next last now).emitted ∧
    (∀ hne : (processGranularMetricStep next last now).emitted ≠ [],
      next ((processGranularMetricStep next last now).emitted.getLast hne) ≤
          now ∧
      now < next (next
        ((processGranularMetricStep next last now).emitted.getLast hne)) ∧
      (processGranularMetricStep next last now).newLastPeriod =
        (processGranularMetricStep next last now).emitted.getLast hne ∧
      (processGranularMetricStep next last now).sqlRun =
        some (next last,
          next ((processGranularMetricStep next last now).emitted.getLast
            hne))) := by
  have hemit : (processGranularMetricStep next last now).emitted =
      getPeriodsToProcess next last now := by
    unfold processGranularMetricStep
    rcases getPeriodsToProcess next last now with _ | ⟨p0, rest⟩ <;> rfl
  refine ⟨?_, ?_, ?_, ?_, ?_⟩
  · intro hlt
    have hnil : getPeriodsToProcess next last now = [] :=
      periodsFrom_eq_nil next now (now + 1) (next last)
        (lt_trans hlt (hnext (next last)))
    unfold processGranularMetricStep
    rw [hnil]
  · intro q hq
    rw [hemit] at hq
    exact periodsFrom_closed next now (now + 1) (next last) q hq
  · intro q hq
    rw [hemit] at hq
    exact (periodsFrom_chain next now (now + 1) (next last)).2 q hq
  · rw [hemit]
    exact (periodsFrom_chain next now (now + 1) (next last)).1
  · intro hne
    have hne2 : getPeriodsToProcess next last now ≠ [] := by
      rw [← hemit]; exact hne
    have hgl : (processGranularMetricStep next last now).emitted.getLast hne =
        (getPeriodsToProcess next last now).getLast hne2 := by
      congr 1
    have hclosed : next ((getPeriodsToProcess next last now).getLast hne2) ≤
        now := periodsFrom_closed next now (now + 1) (next last) _
      (List.getLast_mem hne2)
    have hmax : now < next (next
        ((getPeriodsToProcess next last now).getLast hne2)) :=
      periodsFrom_getLast next hnext now (now + 1) (next last)
        (by omega) hne2
    rcases hps : getPeriodsToProcess next last now with _ | ⟨p0, rest⟩
    · exact absurd hps hne2
    · have hp0 : p0 = next last := by
        refine (periodsFrom_chain next now (now + 1) (next last)).2 p0 ?_
        rw [show periodsFrom next now (now + 1) (next last) =
            getPeriodsToProcess next last now from rfl, hps]
        rfl
      have hstep : processGranularMetricStep next last now =
          { sqlRun := some (p0, next ((p0 :: rest).getLast
              (List.cons_ne_nil p0 rest))),
            newLastPeriod := (p0 :: rest).getLast (List.cons_ne_nil p0 rest),
            emitted := p0 :: rest } := by
        unfold processGranularMetricStep
        rw [hps]
      have hgl2 : (processGranularMetricStep next last now).emitted.getLast
          hne = (p0 :: rest).getLast (List.cons_ne_nil p0 rest) := by
        rw [hgl]
        congr 1
      rw [hgl2]
      refine ⟨?_, ?_, ?_, ?_⟩
      · rw [← hgl2, hgl]
        exact hclosed
      · rw [← hgl2, hgl]
        exact hmax
      · rw [hstep]
      · rw [hstep, hp0]

/-- C4, witness: with `next = (· + 2)`, watermark 0 and block time 1 the
next period (starting at 2) is not closed, so nothing is emitted, no SQL
runs and the watermark stays 0; with block time 5 the step emits period 2,
binds the window `[2, 4)` and advances the watermark to 2. -/
theorem C4_witness :
    processGranularMetricStep (fun t => t + 2) 0 1 =
      { sqlRun := none, newLastPeriod := 0, emitted := [] } ∧
    (processGranularMetricStep (fun t => t + 2) 0 5).sqlRun = some (2, 4) := by
  constructor
  · exact (C4_granular_period_emission (fun t => t + 2)
      (fun t => by show t < t + 2; omega) 0 1).1 (by decide)
  · have h := (C4_granular_period_emission (fun t => t + 2)
      (fun t => by show t < t + 2; omega) 0 5).2.2.2.2 (by decide)
    have hlast : (processGranularMetricStep (fun t => t + 2) 0 5).emitted.getLast
        (by decide) = 2 := by decide
    rw [h.2.2.2, hlast]

/-! ## Claim C5 — dense, ordered block ranges -/

/-- Any block produced by `resolveBlock` for height `h` carries height `h`,
when both the cache and the fetch path return honest heights. -/
theorem resolveBlock_height (cp fp : Int → Option NormalizedBlock)
    (hc : ∀ h b, cp h = some b → b.height = h)
    (hf : ∀ h b, fp h = some b → b.height = h) :
    ∀ h b, resolveBlock cp fp h = some b → b.height = h := by
  intro h b hres
  unfold resolveBlock at hres
  cases hcp : cp h with
  | some c => rw [hcp] at hres; exact hc h b (hcp.trans hres)
  | none => rw [hcp] at hres; exact hf h b hres

/-- C5.  For `lo ≤ hi`, when the cache blobs and the RPC return blocks at
their requested heights: if every height of `[lo, hi]` can be produced
(from cache or by fetching), `FetchBlockRange(lo, hi)` succeeds with
exactly `hi − lo + 1` blocks, the `i`-th at height `lo + i` (dense,
strictly ordered, regardless of the cache/fetch split); if some height of
the range cannot be produced, the whole call returns an error and no
partial sequence. -/
theorem C5_fetch_range_dense (cp fp : Int → Option NormalizedBlock)
    (lo hi : Int) (hle : lo ≤ hi)
    (hc : ∀ h b, cp h = some b → b.height = h)
    (hf : ∀ h b, fp h = some b → b.height = h) :
    ((∀ h : Int, lo ≤ h → h ≤ hi → (resolveBlock cp fp h).isSome) →
      ∃ blocks, FetchBlockRange cp fp lo hi = .ok blocks ∧
        blocks.length = (hi - lo + 1).toNat ∧
        ∀ i : Fin blocks.length,
          (blocks.get i).height = lo + (i.val : Int)) ∧
    ((∃ h : Int, lo ≤ h ∧ h ≤ hi ∧ resolveBlock cp fp h = none) →
      FetchBlockRange cp fp lo hi = .error .fetchFailed) := by
  have hnotlt : ¬ lo > hi := not_lt.mpr hle
  set n := (hi - lo + 1).toNat with hn
  set heights := (List.range n).map (fun i : Nat => lo + (i : Int))
    with hheights
  have hnval : (n : Int) = hi - lo + 1 := by
    rw [hn]
    exact Int.toNat_of_nonneg (by omega)
  have hlen : heights.length = n := by simp [hheights]
  have hget : ∀ i (hi2 : i < heights.length),
      heights.get ⟨i, hi2⟩ = lo + (i : Int) := by
    intro i hi2
    simp only [hheights, List.get_eq_getElem, List.getElem_map,
      List.getElem_range]
  have hmemrange : ∀ x ∈ heights, lo ≤ x ∧ x ≤ hi := by
    intro x hx
    rw [hheights] at hx
    rcases List.mem_map.mp hx with ⟨i, hi2, rfl⟩
    have hilt : i < n := List.mem_range.mp hi2
    have : (i : Int) < (n : Int) := by exact_mod_cast hilt
    omega
  constructor
  · intro hall
    have hallmem : ∀ x ∈ heights, (resolveBlock cp fp x).isSome := by
      intro x hx
      exact hall x (hmemrange x hx).1 (hmemrange x hx).2
    rcases resolveAll_isSome (resolveBlock cp fp) heights hallmem with
      ⟨bs, hbs, hbslen, hbsget⟩
    refine ⟨bs, ?_, by rw [hbslen, hlen], ?_⟩
    · unfold FetchBlockRange
      rw [if_neg hnotlt]
      show (match resolveAll (resolveBlock cp fp) heights with
        | none => Except.error FetchErr.fetchFailed
        | some blocks => Except.ok blocks) = Except.ok bs
      rw [hbs]
    · intro i
      have hi2 : i.val < heights.length := by
        rw [hlen, ← hbslen.trans hlen]
        exact i.isLt
      have hres := hbsget i hi2
      rw [hget i.val hi2] at hres
      exact resolveBlock_height cp fp hc hf (lo + (i.val : Int))
        (bs.get i) hres
  · intro hex
    rcases hex with ⟨h, hlo, hhi, hnone⟩
    have hmem : h ∈ heights := by
      rw [hheights]
      refine List.mem_map.mpr ⟨(h - lo).toNat, List.mem_range.mpr ?_, ?_⟩
      · have hcast : ((h - lo).toNat : Int) < (n : Int) := by
          rw [Int.toNat_of_nonneg (by omega)]
          omega
        exact_mod_cast hcast
      · rw [Int.toNat_of_nonneg (by omega)]
        omega
    have hnoneall : resolveAll (resolveBlock cp fp) heights = none :=
      resolveAll_eq_none (resolveBlock cp fp) heights ⟨h, hmem, hnone⟩
    unfold FetchBlockRange
    rw [if_neg hnotlt]
    show (match resolveAll (resolveBlock cp fp) heights with
      | none => Except.error FetchErr.fetchFailed
      | some blocks => Except.ok blocks) = Except.error FetchErr.fetchFailed
    rw [hnoneall]

/-- C5, witness: with heights 5 cached and 6 fetched, `FetchBlockRange(5, 6)`
returns two blocks at heights 5 and 6. -/
theorem C5_witness :
    ∃ blocks, FetchBlockRange
        (fun h => if h = 5 then some { height := 5 } else none)
        (fun h => if h = 6 then some { height := 6 } else none) 5 6 =
          .ok blocks ∧
      blocks.length = ((6 : Int) - 5 + 1).toNat ∧
      ∀ i : Fin blocks.length, (blocks.get i).height = 5 + (i.val : Int) := by
  refine (C5_fetch_range_dense _ _ 5 6 (by decide) ?_ ?_).1 ?_
  · intro h b hb
    by_cases h5 : h = (5 : Int)
    · rw [if_pos h5] at hb
      cases hb
      rw [h5]
    · rw [if_neg h5] at hb
      exact absurd hb (by simp)
  · intro h b hb
    by_cases h6 : h = (6 : Int)
    · rw [if_pos h6] at hb
      cases hb
      rw [h6]
    · rw [if_neg h6] at hb
      exact absurd hb (by simp)
  · intro h h1 h2
    have : h = 5 ∨ h = 6 := by omega
    rcases this with rfl | rfl <;> simp [resolveBlock]

/-! ## Claim C6 — refund amounts -/

/-- C6.  For a validator disabled at millisecond time `disableMs` whose
current validation period started at `startMs ≤ disableMs` with total
recorded deposits `totalDeposits` (nAVAX): the refund is `totalDeposits −
secs × 512` where `secs` is the number of whole seconds elapsed, clamped
to zero when the fee term reaches `totalDeposits`. -/
theorem C6_refund_amount (totalDeposits : Nat) (startMs disableMs : Int)
    (_horder : startMs ≤ disableMs) :
    (totalDeposits ≤ ((disableMs - startMs) / 1000).toNat * 512 →
      calculateRefundFromDeposits totalDeposits startMs disableMs = 0) ∧
    (((disableMs - startMs) / 1000).toNat * 512 < totalDeposits →
      calculateRefundFromDeposits totalDeposits startMs disableMs =
        totalDeposits - ((disableMs - startMs) / 1000).toNat * 512) := by
  constructor
  · intro h
    simp only [calculateRefundFromDeposits, minFeeRate]
    rw [if_pos h]
  · intro h
    simp only [calculateRefundFromDeposits, minFeeRate]
    rw [if_neg (not_le.mpr h)]

/-- C6, witness: deposits of 100000 nAVAX over 10.5 elapsed seconds (10
whole seconds) refund `100000 − 10 × 512 = 94880`; tiny deposits are
clamped to zero. -/
theorem C6_witness :
    calculateRefundFromDeposits 100000 0 10500 = 94880 ∧
    calculateRefundFromDeposits 100 0 10500 = 0 := by
  constructor
  · have h := (C6_refund_amount 100000 0 10500 (by decide)).2 (by decide)
    exact h.trans (by decide)
  · exact (C6_refund_amount 100 0 10500 (by decide)).1 (by decide)

/-! ## Claim C7 — cache checkpoint vs dense prefix -/

/-- C7 (code bug).  `runChainCache` saves the final checkpoint at the
target end block even when a chunk of the range failed to fetch: with
blocks `[1, 2000]`, chunk size 1000 and the fetch of chunk `[1, 1000]`
failing (only logged), the final checkpoint is still 2000 although block
500 is absent from the cache — the contiguous-prefix invariant claimed
for `SetCheckpoint` is violated by the caller. -/
theorem C7_checkpoint_without_dense_prefix :
    (runChainCacheModel 1 2000 1000 (fun c => c ≠ 1)).finalCheckpoint =
      2000 ∧
    blockCached (runChainCacheModel 1 2000 1000 (fun c => c ≠ 1)) 500 =
      false ∧
    blockCached (runChainCacheModel 1 2000 1000 (fun c => c ≠ 1)) 1500 =
      true := by
  decide

/-! ## Claim C8 — fast argument errors and singleton ranges -/

/-- C8.  `FetchBlockRange(lo, hi)` with `lo > hi` fails with the
invalid-range argument error for every cache and fetch oracle — the
result does not depend on them, so neither the cache nor the RPC is
consulted; and `FetchBlockRange(k, k)` returns exactly one block whenever
height `k` can be produced. -/
theorem C8_fetch_range_boundaries :
    (∀ (cp fp : Int → Option NormalizedBlock) (lo hi : Int), hi < lo →
      FetchBlockRange cp fp lo hi = .error (.invalidRange lo hi)) ∧
    (∀ (cp fp : Int → Option NormalizedBlock) (k : Int),
      (resolveBlock cp fp k).isSome →
      ∃ b, FetchBlockRange cp fp k k = .ok [b] ∧
        resolveBlock cp fp k = some b) := by
  constructor
  · intro cp fp lo hi hlt
    unfold FetchBlockRange
    rw [if_pos hlt]
  · intro cp fp k hsome
    rcases Option.isSome_iff_exists.mp hsome with ⟨b, hb⟩
    refine ⟨b, ?_, hb⟩
    unfold FetchBlockRange
    rw [if_neg (by omega)]
    show (match resolveAll (resolveBlock cp fp)
        ((List.range ((k - k + 1).toNat)).map (fun i : Nat => k + (i : Int)))
      with
      | none => Except.error FetchErr.fetchFailed
      | some blocks => Except.ok blocks) = Except.ok [b]
    have hone : (k - k + 1).toNat = 1 := by simp
    rw [hone]
    have hlist : (List.range 1).map (fun i : Nat => k + (i : Int)) = [k] := by
      simp [List.range_succ]
    rw [hlist]
    have hres : resolveAll (resolveBlock cp fp) [k] = some [b] := by
      simp [resolveAll, hb]
    rw [hres]

/-- C8, witness: `FetchBlockRange(5, 3)` fails fast with the argument
error under oracles that never answer, and `FetchBlockRange(7, 7)` with
height 7 cached returns exactly one block. -/
theorem C8_witness :
    FetchBlockRange (fun _ => none) (fun _ => none) 5 3 =
      .error (.invalidRange 5 3) ∧
    ∃ b, FetchBlockRange (fun _ => some { height := 7 }) (fun _ => none)
        7 7 = .ok [b] ∧
      resolveBlock (fun _ => some { height := 7 }) (fun _ => none) 7 =
        some b :=
  ⟨C8_fetch_range_boundaries.1 _ _ 5 3 (by decide),
   C8_fetch_range_boundaries.2 _ _ 7 (by simp [resolveBlock])⟩

/-! ## Claim C9 — retry counts and backoff -/

/-- C9, counterexample.  The claim says a per-request fetch performs at
most `max_retries` attempts.  The loop runs `attempt = 0 .. maxRetries`
inclusive: with `maxRetries = 1` and every attempt failing, two attempts
are performed. -/
theorem C9_counterexample :
    (fetchWithRetry 1 500 (fun _ => (none : Option Nat))).attempts = 2 ∧
    ¬ (fetchWithRetry 1 500 (fun _ => (none : Option Nat))).attempts ≤ 1 := by
  decide

/-- C9, amended.  Every per-request fetch performs at most
`max_retries + 1` attempts (one initial try plus up to `max_retries`
retries); the delay slept before the `n`-th retry is `retry_delay ×
2^(n−1)` capped at 10 seconds; the call fails exactly when all
`max_retries + 1` attempts fail, i.e. only after the final attempt. -/
theorem C9_retry_behaviour_amended {α : Type} (maxRetries d : Nat)
    (oracle : Nat → Option α) :
    (fetchWithRetry maxRetries d oracle).attempts ≤ maxRetries + 1 ∧
    (fetchWithRetry maxRetries d oracle).delays =
      (List.range ((fetchWithRetry maxRetries d oracle).attempts - 1)).map
        (fun i => min (d * 2 ^ i) backoffCapMs) ∧
    ((fetchWithRetry maxRetries d oracle).result = none ↔
      ∀ i, i ≤ maxRetries → oracle i = none) ∧
    ((fetchWithRetry maxRetries d oracle).result = none →
      (fetchWithRetry maxRetries d oracle).attempts = maxRetries + 1) := by
  refine ⟨?_, fetchWithRetry_delays maxRetries d oracle, ?_, ?_⟩
  · exact retryLoop_attempts_le d oracle (maxRetries + 1) 0
  · show (retryLoop d oracle 0 (maxRetries + 1)).result = none ↔ _
    rw [retryLoop_result_none_iff d oracle (maxRetries + 1) 0]
    constructor
    · intro hall i hle
      exact hall i (by omega) (by omega)
    · intro hall i _ hlt
      exact hall i (by omega)
  · exact retryLoop_attempts_of_none d oracle (maxRetries + 1) 0

/-- C9, witness: with `maxRetries = 3`, base delay 500 ms and the oracle
succeeding on the second attempt, at most four attempts occur and the
sleeps follow the capped exponential schedule. -/
theorem C9_witness :
    (fetchWithRetry 3 500 (fun i => if i = 1 then some 42 else
        (none : Option Nat))).attempts ≤ 4 ∧
    (fetchWithRetry 3 500 (fun i => if i = 1 then some 42 else
        (none : Option Nat))).delays =
      (List.range ((fetchWithRetry 3 500 (fun i => if i = 1 then some 42
          else (none : Option Nat))).attempts - 1)).map
        (fun i => min (500 * 2 ^ i) backoffCapMs) :=
  ⟨(C9_retry_behaviour_amended 3 500 _).1,
   (C9_retry_behaviour_amended 3 500 _).2.1⟩

/-! ## Claim C10 — empty validator snapshots -/

/-- C10.  With an empty list of active validation IDs,
`MarkInactiveValidators` returns immediately: it neither queries nor
writes `l1_validator_state`, so no validator is marked inactive and the
stored validator state is unchanged. -/
theorem C10_mark_inactive_empty_snapshot (pchainId : Nat)
    (subnetId : String) (db : List ValStateRow) :
    MarkInactiveValidators pchainId subnetId [] db =
      { queried := false, inserted := [] } ∧
    applyMark db (MarkInactiveValidators pchainId subnetId [] db) = db := by
  constructor
  · rfl
  · simp [applyMark, MarkInactiveValidators]

end Icicle
